import Mathlib

/-!
Shallow embedding of `build.py` from the kubernetes-json-schema build
repository, together with proofs of the specified properties of its
version-resolution, fan-out-scheduling and patch-promotion core.

Python strings are embedded as `List Char`; the filesystem of directories
is embedded as a finite map from path strings to abstract directory
contents; external subprocesses (the containerized converter, `jq`,
`rm`, `cp`) are embedded as oracles / explicit state transformations
exactly where `build.py` shells out to them.
-/

namespace Build

/-- Python strings are embedded as lists of characters. -/
abbrev Str := List Char

/-- Coercion from Lean string literals into the embedding. -/
def str (s : String) : Str := s.data

/-! ## version_compare (build.py lines 22-36) -/

/-- Python `v.strip("v")`: removes all leading and all trailing `'v'`
characters. -/
def stripV (s : Str) : Str :=
  ((s.dropWhile (· = 'v')).reverse.dropWhile (· = 'v')).reverse

/-- Python `v.split(".")`: splits on every `'.'`, keeping empty pieces,
and returns `[""]` on the empty string. -/
def splitOnDot : Str → List Str
  | [] => [[]]
  | c :: cs =>
    let rest := splitOnDot cs
    if c = '.' then [] :: rest
    else
      match rest with
      | [] => [[c]]
      | r :: rs => (c :: r) :: rs

/-- Python `int(part)` on a version component: succeeds on a nonempty
decimal-digit string (the only shape occurring in hyphen-free version
tags), `none` models the `ValueError` Python raises otherwise. -/
def toInt? (s : Str) : Option Nat :=
  if s ≠ [] ∧ s.all (·.isDigit) then
    some (s.foldl (fun n c => 10 * n + (c.toNat - '0'.toNat)) 0)
  else none

/-- `list(map(int, v.strip("v").split(".")))`; `none` models the
exception on a malformed component. -/
def parseVersion (v : Str) : Option (List Nat) :=
  (splitOnDot (stripV v)).mapM toInt?

/-- A version string whose components all parse: `version_compare`
terminates normally exactly on these. -/
def wellFormed (v : Str) : Bool :=
  (parseVersion v).isSome

/-- The two `while` loops of `version_compare`: right-pad a component
list with zeros up to length `n`. -/
def padZeros (l : List Nat) (n : Nat) : List Nat :=
  l ++ List.replicate (n - l.length) 0

/-- The final `for part1, part2 in zip(...)` loop of `version_compare`:
first differing component decides; exhausting the zip yields 0. -/
def cmpZip : List Nat → List Nat → Int
  | a :: as, b :: bs =>
    if a < b then -1 else if b < a then 1 else cmpZip as bs
  | _, _ => 0

/-- Comparison of two parsed component lists after zero-padding both to
equal length, as `version_compare` does. -/
def cmpParts (p q : List Nat) : Int :=
  cmpZip (padZeros p (max p.length q.length)) (padZeros q (max p.length q.length))

/-- `version_compare(v1, v2)` of build.py: parse both (an exception on a
malformed component is `none`), zero-pad, compare lexicographically. -/
def version_compare (v1 v2 : Str) : Option Int := do
  let p1 ← parseVersion v1
  let p2 ← parseVersion v2
  pure (cmpParts p1 p2)

/-! ## Catalog filtering (build.py lines 146-152) -/

/-- Python `"-" in v`. -/
def hasHyphen (v : Str) : Bool := v.contains '-'

def EARLIEST_API_VERSION : Str := str "v1.7.0"

def LATEST_API_VERSION : Str := str "v2.0.0"

/-- The list comprehension of `main` (lines 146-152), with Python's
short-circuiting `and`: a hyphen tag is dropped without comparing;
`none` models the exception a malformed hyphen-free tag raises inside
`version_compare`. -/
def filterVersions : List Str → Str → Str → Option (List Str)
  | [], _, _ => some []
  | v :: rest, lo, hi =>
    if hasHyphen v then filterVersions rest lo hi
    else
      (version_compare v lo).bind fun c1 =>
        if 0 ≤ c1 then
          (version_compare v hi).bind fun c2 =>
            (filterVersions rest lo hi).bind fun tail =>
              some (if c2 ≤ 0 then v :: tail else tail)
        else filterVersions rest lo hi

/-! ## Sorting and the master sentinel (build.py lines 153-156) -/

/-- The sort key `lambda v: list(map(int, v.strip("v").split(".")))`; on
the filtered list every element parses (the filter would have raised
otherwise), so the `[]` default never occurs there. -/
def sortKey (v : Str) : List Nat := (parseVersion v).getD []

/-- Python `<=` on integer lists: lexicographic, with a proper prefix
ranking below its extensions. -/
def keyLe : List Nat → List Nat → Bool
  | [], _ => true
  | _ :: _, [] => false
  | a :: as, b :: bs =>
    if a < b then true else if b < a then false else keyLe as bs

/-- The order `versions.sort(key=...)` sorts by. -/
def keyRel (a b : Str) : Prop := keyLe (sortKey a) (sortKey b) = true

instance : DecidableRel keyRel := fun a b =>
  inferInstanceAs (Decidable (keyLe (sortKey a) (sortKey b) = true))

/-- `versions.sort(key=...)`: Python's stable sort, modelled as insertion
sort by the key order (like `list.sort`, it returns a sorted permutation
of its input). -/
def pythonSort (l : List Str) : List Str := List.insertionSort keyRel l

/-- Lines 153-156 of `main`: sort the filtered tags by key and append the
`"master"` sentinel. -/
def resolveVersions (tags : List Str) (lo hi : Str) : Option (List Str) :=
  (filterVersions tags lo hi).map (fun l => pythonSort l ++ [str "master"])

/-- `a` is at most `b` in the ordering `version_compare` induces. -/
def vcLe (a b : Str) : Prop :=
  ∃ c, version_compare a b = some c ∧ c ≤ 0

/-! ## Task construction and scheduling (build.py lines 158-222) -/

/-- `pathlib`'s `a / b` on our flat path strings. -/
def pathJoin (a b : Str) : Str := a ++ '/' :: b

/-- `version_to_path` (lines 102-103): ignores its argument and returns
the constant root `Path("kubernetes-api")`. -/
def version_to_path (v : Str) : Str := str "kubernetes-api"

/-- The directory tree: a partial map from path to an abstract directory
content identifier (`none` = no directory at that path). -/
abbrev DirFS : Type := Str → Option Nat

/-- A finite directory tree given by a path/content association list. -/
def fsOf (l : List (Str × Nat)) : DirFS := fun p => List.lookup p l

def KUBERNETES_GIT_URL : Str :=
  str "https://raw.githubusercontent.com/kubernetes/kubernetes"

def SCHEMA_REF_BASE_URL : Str :=
  str "https://patthomasrick.github.io/kubernetes-json-schema"

/-- One submitted converter invocation, carrying the `-o` output
directory, `--prefix` URL and positional schema URL of lines 210-222. -/
structure ConversionTask where
  version : Str
  outDir : Str
  prefixUrl : Str
  schemaUrl : Str
deriving DecidableEq

/-- The task main submits for `version` (lines 210-222). -/
def mkTask (version : Str) : ConversionTask where
  version := version
  outDir := pathJoin (version_to_path version) version
  prefixUrl :=
    SCHEMA_REF_BASE_URL ++ '/' :: (version ++ str "/_definitions.json")
  schemaUrl :=
    KUBERNETES_GIT_URL ++ '/' :: (version ++ str "/api/openapi-spec/swagger.json")

/-- Lines 158-162: remove any pre-existing master output directory. -/
def removeMasterDir (fs : DirFS) : DirFS :=
  if (fs (pathJoin (version_to_path (str "master")) (str "master"))).isSome then
    fun q =>
      if q = pathJoin (version_to_path (str "master")) (str "master") then none
      else fs q
  else fs

/-- Lines 167-169: `out_path.mkdir(parents=True, exist_ok=True)` when the
constant output root does not exist yet (`0` marks the fresh empty
directory). -/
def ensureRoot (fs : DirFS) : DirFS :=
  if (fs (str "kubernetes-api")).isSome then fs
  else fun q => if q = str "kubernetes-api" then some 0 else fs q

/-- The submission loop (lines 164-222): walk the version list in order,
creating the output root when missing, skipping any non-`"master"`
version whose per-version output directory already exists (a warning is
logged, nothing is submitted), and submitting one converter task for
every other version. Returns the directory tree after the pass and the
submitted tasks in submission order. -/
def planTasks : List Str → DirFS → DirFS × List ConversionTask
  | [], fs => (fs, [])
  | version :: rest, fs =>
    if ((ensureRoot fs) (pathJoin (version_to_path version) version)).isSome ∧
        version ≠ str "master" then
      planTasks rest (ensureRoot fs)
    else
      ((planTasks rest (ensureRoot fs)).1,
        mkTask version :: (planTasks rest (ensureRoot fs)).2)

/-- Lines 158-222 in sequence: the master directory removal strictly
precedes task submission. -/
def mainSchedule (versions : List Str) (fs : DirFS) :
    DirFS × List ConversionTask :=
  planTasks versions (removeMasterDir fs)

/-! ## The as_completed collection loop (build.py lines 272-278) -/

/-- Diagnostic payload of a raised `CalledProcessError` — the only
exception the collection loop catches. -/
structure SubprocessError where
  returncode : Int
deriving DecidableEq

/-- What the loop body logs for one completed future. -/
inductive Outcome
  | success
  | failure
deriving DecidableEq

def Outcome.isFailure : Outcome → Bool
  | .success => false
  | .failure => true

/-- One iteration of the loop: `future.result()` either returns (success
logged) or raises `CalledProcessError` (error logged); either way the
loop moves on to the next future. -/
def reportOutcome {α : Type} (r : Except SubprocessError α) : Outcome :=
  match r with
  | .ok _ => .success
  | .error _ => .failure

/-- The whole collection loop: every submitted future is waited on and
its outcome recorded, keyed by its task's version. -/
def schedulerOutcomes {α : Type}
    (run : ConversionTask → Except SubprocessError α)
    (ts : List ConversionTask) : List (Str × Outcome) :=
  ts.map fun t => (t.version, reportOutcome (run t))


/-! ## Output normalization (build.py lines 76-97) -/

/-- A produced output directory: filenames paired with file contents. -/
abbrev Dir := List (Str × Str)

/-- Python `file.endswith(".json")`. -/
def endsWithJson (name : Str) : Bool := (str ".json").isSuffixOf name

/-- The normalization loop (lines 79-96): for every `.json` entry run the
external `jq --sort-keys` oracle on its contents (`none` models a
nonzero `jq` exit); on success write the sorted text back, on failure
log, skip and leave the file in its prior state; other entries are
untouched. -/
def normalizeDir (jq : Str → Option Str) : Dir → Dir
  | [] => []
  | (n, c) :: rest =>
    if endsWithJson n then
      match jq c with
      | some s => (n, s) :: normalizeDir jq rest
      | none => (n, c) :: normalizeDir jq rest
    else (n, c) :: normalizeDir jq rest

/-- `openapi2jsonschema` (lines 54-99): a converter failure re-raises its
`CalledProcessError`; a success is followed by normalization of the
output directory, which itself never raises. -/
def openapi2jsonschema (jq : Str → Option Str)
    (conv : Except SubprocessError Dir) : Except SubprocessError Dir :=
  match conv with
  | .error e => .error e
  | .ok files => .ok (normalizeDir jq files)

/-- File contents by path (`none` = no file at that path). -/
abbrev FileFS := Str → Option Str

/-- File operations available while rewriting one normalized file. -/
inductive FileOp
  /-- `open(file_path, "w")`: creates/truncates the file in place. -/
  | openTrunc (path : Str)
  /-- `outfile.write(s)`: appends `s` at the current position. -/
  | write (path : Str) (s : Str)

/-- The rewrite build.py performs for one sorted file (lines 91-92): it
opens the destination itself for writing — no temporary sibling path,
no replace. -/
def rewriteOps (path : Str) (sorted : Str) : List FileOp :=
  [FileOp.openTrunc path, FileOp.write path sorted]

def applyOp (fs : FileFS) : FileOp → FileFS
  | .openTrunc p => fun q => if q = p then some [] else fs q
  | .write p s => fun q => if q = p then some ((fs p).getD [] ++ s) else fs q

def applyOps (ops : List FileOp) (fs : FileFS) : FileFS :=
  ops.foldl applyOp fs

/-- The claimed atomicity property of one file rewrite: after every
prefix of its operations the file holds either its prior or its final
contents, so an interruption never exposes a half-written file. -/
def AtomicRewrite (ops : List FileOp) (fs : FileFS) (path : Str)
    (new : Str) : Prop :=
  ∀ k : Nat, applyOps (List.take k ops) fs path = fs path ∨
    applyOps (List.take k ops) fs path = some new

/-! ## Latest-patch promotion (build.py lines 106-139) -/

/-- Python `".".join(parts)`. -/
def joinDots : List Str → Str
  | [] => []
  | [p] => p
  | p :: ps => p ++ '.' :: joinDots ps

/-- `".".join(v.split(".")[:2])` (line 116): the minor-version name of a
patch version. -/
def minorOf (v : Str) : Str := joinDots ((splitOnDot v).take 2)

/-- Python-dict key lookup on an insertion-ordered association list. -/
def lookupA (k : Str) : List (Str × Str) → Option Str
  | [] => none
  | (k', v) :: rest => if k' = k then some v else lookupA k rest

/-- Python-dict in-place value update of an existing key. -/
def updateA (k v : Str) : List (Str × Str) → List (Str × Str)
  | [] => []
  | (k', v') :: rest =>
    if k' = k then (k, v) :: rest else (k', v') :: updateA k v rest

/-- The scan loop (lines 111-124): build the
`minor_version_to_latest_patch` dict in insertion order, considering only
versions whose per-version output directory exists; `none` models the
exception a malformed version raises inside `version_compare`. -/
def scanGroups (fs : DirFS) :
    List Str → List (Str × Str) → Option (List (Str × Str))
  | [], acc => some acc
  | v :: rest, acc =>
    if (fs (pathJoin (version_to_path v) v)).isSome then
      match lookupA (minorOf v) acc with
      | none => scanGroups fs rest (acc ++ [(minorOf v, v)])
      | some cur =>
        (version_compare v cur).bind fun c =>
          if 0 < c then scanGroups fs rest (updateA (minorOf v) v acc)
          else scanGroups fs rest acc
    else scanGroups fs rest acc

/-- Result of the promotion loop; `err` carries the directory tree at the
moment an uncaught `CalledProcessError` propagates out of the loop. -/
inductive PromoteResult
  | ok (fs : DirFS)
  | err (fs : DirFS)

/-- `rm -rf` of a directory when it exists (lines 131-132). -/
def rmIfExists (fs : DirFS) (p : Str) : DirFS :=
  if (fs p).isSome then fun q => if q = p then none else fs q else fs

/-- The promotion loop (lines 127-139): for each group in dict order,
delete any existing directory at the minor slot, then
`cp -r <latest>/ <minor>/` with `check=True` — the copy lands the
latest patch's contents at the minor slot; a missing source directory
makes `cp` exit nonzero and the resulting exception aborts the whole
loop, leaving the remaining groups unprocessed. -/
def promoteLoop (fs : DirFS) : List (Str × Str) → PromoteResult
  | [] => .ok fs
  | (minor, latest) :: rest =>
    match (rmIfExists fs (pathJoin (version_to_path minor) minor))
        (pathJoin (version_to_path latest) latest) with
    | none => .err (rmIfExists fs (pathJoin (version_to_path minor) minor))
    | some c =>
      promoteLoop
        (fun q =>
          if q = pathJoin (version_to_path minor) minor then some c
          else (rmIfExists fs (pathJoin (version_to_path minor) minor)) q)
        rest

/-- `copy_latest_patch_versions_to_minor` (lines 106-139): scan, then
promote group by group. -/
def copy_latest_patch_versions_to_minor (versions : List Str)
    (fs : DirFS) : PromoteResult :=
  match scanGroups fs versions [] with
  | none => .err fs
  | some groups => promoteLoop fs groups

def promoteOk : PromoteResult → Option DirFS
  | .ok fs => some fs
  | .err _ => none

def promoteErr : PromoteResult → Option DirFS
  | .ok _ => none
  | .err fs => some fs


/-! ## Theorems -/

/-! ### Order lemmas for `cmpZip` / `cmpParts` -/

theorem cmpZip_nil_left : ∀ b, cmpZip [] b = 0 := by
  intro b; cases b <;> rfl

theorem cmpZip_nil_right : ∀ a, cmpZip a [] = 0 := by
  intro a; cases a <;> rfl

theorem cmpZip_self : ∀ a, cmpZip a a = 0 := by
  intro a
  induction a with
  | nil => rfl
  | cons x xs ih => simp [cmpZip, ih]

theorem cmpZip_neg : ∀ a b, cmpZip b a = -cmpZip a b := by
  intro a
  induction a with
  | nil => intro b; cases b <;> rfl
  | cons x xs ih =>
    intro b
    cases b with
    | nil => rfl
    | cons y ys =>
      simp only [cmpZip]
      rcases lt_trichotomy x y with h | h | h
      · rw [if_neg (show ¬ y < x by omega), if_pos h, if_pos h]; decide
      · rw [if_neg (show ¬ y < x by omega), if_neg (show ¬ x < y by omega),
          if_neg (show ¬ x < y by omega), if_neg (show ¬ y < x by omega)]
        exact ih ys
      · rw [if_pos h, if_neg (show ¬ x < y by omega), if_pos h]

theorem cmpZip_trans_neg :
    ∀ (a b c : List Nat), a.length = b.length → b.length = c.length →
      cmpZip a b = -1 → cmpZip b c = -1 → cmpZip a c = -1 := by
  intro a
  induction a with
  | nil =>
    intro b c hab _ h1 _
    cases b with
    | nil => simp [cmpZip_nil_left] at h1
    | cons y ys => simp at hab
  | cons x xs ih =>
    intro b c hab hbc h1 h2
    cases b with
    | nil => simp at hab
    | cons y ys =>
      cases c with
      | nil => simp at hbc
      | cons z zs =>
        simp only [cmpZip] at h1 h2 ⊢
        by_cases hxy : x < y
        · rw [if_pos hxy] at h1
          by_cases hyz : y < z
          · rw [if_pos (show x < z by omega)]
          · rw [if_neg hyz] at h2
            by_cases hzy : z < y
            · rw [if_pos hzy] at h2; omega
            · rw [if_pos (show x < z by omega)]
        · rw [if_neg hxy] at h1
          by_cases hyx : y < x
          · rw [if_pos hyx] at h1; omega
          · rw [if_neg hyx] at h1
            by_cases hyz : y < z
            · rw [if_pos (show x < z by omega)]
            · rw [if_neg hyz] at h2
              by_cases hzy : z < y
              · rw [if_pos hzy] at h2; omega
              · rw [if_neg hzy] at h2
                rw [if_neg (show ¬ x < z by omega), if_neg (show ¬ z < x by omega)]
                exact ih ys zs (by simpa using hab) (by simpa using hbc) h1 h2

theorem cmpZip_append_replicate :
    ∀ (a b : List Nat) (k : Nat), a.length = b.length →
      cmpZip (a ++ List.replicate k 0) (b ++ List.replicate k 0) = cmpZip a b := by
  intro a
  induction a with
  | nil =>
    intro b k hab
    cases b with
    | nil =>
      simp only [List.nil_append, cmpZip_nil_left, cmpZip_nil_right]
      induction k with
      | zero => rfl
      | succ n ihk => simpa [List.replicate_succ, cmpZip] using ihk
    | cons y ys => simp at hab
  | cons x xs ih =>
    intro b k hab
    cases b with
    | nil => simp at hab
    | cons y ys =>
      simp only [List.cons_append, cmpZip]
      rcases lt_trichotomy x y with h | h | h
      · rw [if_pos h, if_pos h]
      · rw [if_neg (show ¬ x < y by omega), if_neg (show ¬ x < y by omega),
          if_neg (show ¬ y < x by omega), if_neg (show ¬ y < x by omega)]
        exact ih ys k (by simpa using hab)
      · rw [if_neg (show ¬ x < y by omega), if_neg (show ¬ x < y by omega),
          if_pos h, if_pos h]

theorem padZeros_length (l : List Nat) (n : Nat) (h : l.length ≤ n) :
    (padZeros l n).length = n := by
  simp [padZeros]; omega

theorem padZeros_split (l : List Nat) (m n : Nat)
    (h1 : l.length ≤ m) (h2 : m ≤ n) :
    padZeros l n = padZeros l m ++ List.replicate (n - m) 0 := by
  simp only [padZeros, List.append_assoc, List.append_cancel_left_eq]
  rw [← List.replicate_add]
  congr 1
  omega

/-- `cmpParts` is unchanged by padding both sides to any common length at
least as large as both. -/
theorem cmpParts_pad (p q : List Nat) (n : Nat)
    (hp : p.length ≤ n) (hq : q.length ≤ n) :
    cmpZip (padZeros p n) (padZeros q n) = cmpParts p q := by
  set m := max p.length q.length with hm
  have hpm : p.length ≤ m := le_max_left _ _
  have hqm : q.length ≤ m := le_max_right _ _
  have hmn : m ≤ n := by omega
  rw [padZeros_split p m n hpm hmn, padZeros_split q m n hqm hmn]
  rw [cmpZip_append_replicate _ _ _ (by rw [padZeros_length _ _ hpm, padZeros_length _ _ hqm])]
  rfl

theorem cmpParts_self (p : List Nat) : cmpParts p p = 0 := by
  simp [cmpParts, cmpZip_self]

theorem cmpParts_neg (p q : List Nat) : cmpParts q p = -cmpParts p q := by
  simp only [cmpParts, Nat.max_comm q.length p.length]
  exact cmpZip_neg _ _

theorem cmpParts_trans_neg (p q r : List Nat)
    (h1 : cmpParts p q = -1) (h2 : cmpParts q r = -1) :
    cmpParts p r = -1 := by
  set n := max (max p.length q.length) r.length with hn
  have hp : p.length ≤ n := by omega
  have hq : q.length ≤ n := by omega
  have hr : r.length ≤ n := by omega
  rw [← cmpParts_pad p q n hp hq] at h1
  rw [← cmpParts_pad q r n hq hr] at h2
  rw [← cmpParts_pad p r n hp hr]
  exact cmpZip_trans_neg _ _ _
    (by rw [padZeros_length _ _ hp, padZeros_length _ _ hq])
    (by rw [padZeros_length _ _ hq, padZeros_length _ _ hr]) h1 h2

/-! ### Order properties of `version_compare` -/

theorem version_compare_eq (v1 v2 : Str) (p1 p2 : List Nat)
    (h1 : parseVersion v1 = some p1) (h2 : parseVersion v2 = some p2) :
    version_compare v1 v2 = some (cmpParts p1 p2) := by
  simp [version_compare, h1, h2]

theorem version_compare_some (v1 v2 : Str) (c : Int)
    (h : version_compare v1 v2 = some c) :
    ∃ p1 p2, parseVersion v1 = some p1 ∧ parseVersion v2 = some p2 ∧
      c = cmpParts p1 p2 := by
  rcases hp1 : parseVersion v1 with _ | p1 <;>
    rcases hp2 : parseVersion v2 with _ | p2 <;>
    simp [version_compare, hp1, hp2] at h
  exact ⟨p1, p2, rfl, rfl, h.symm⟩

/-- A `version_compare` that returns at all only saw well-formed inputs. -/
theorem version_compare_wellFormed (v1 v2 : Str) (c : Int)
    (h : version_compare v1 v2 = some c) :
    wellFormed v1 = true ∧ wellFormed v2 = true := by
  rcases version_compare_some v1 v2 c h with ⟨p1, p2, h1, h2, _⟩
  simp [wellFormed, h1, h2]

theorem version_compare_self (v : Str) (h : wellFormed v = true) :
    version_compare v v = some 0 := by
  rcases hp : parseVersion v with _ | p
  · simp [wellFormed, hp] at h
  · rw [version_compare_eq v v p p hp hp, cmpParts_self]

theorem version_compare_antisym (a b : Str) (c : Int)
    (h : version_compare a b = some c) :
    version_compare b a = some (-c) := by
  rcases version_compare_some a b c h with ⟨p, q, hp, hq, hc⟩
  rw [version_compare_eq b a q p hq hp, cmpParts_neg, hc]

theorem version_compare_trans (a b c : Str)
    (h1 : version_compare a b = some (-1))
    (h2 : version_compare b c = some (-1)) :
    version_compare a c = some (-1) := by
  rcases version_compare_some a b (-1) h1 with ⟨p, q, hp, hq, hpq⟩
  rcases version_compare_some b c (-1) h2 with ⟨q', r, hq', hr, hqr⟩
  rw [hq] at hq'
  cases hq'
  rw [version_compare_eq a c p r hp hr,
    cmpParts_trans_neg p q r hpq.symm hqr.symm]

/-- C4: `version_compare` strips the `v` wrapping, splits on dots, parses
integer components, zero-pads to equal length and compares
lexicographically; on well-formed versions it is reflexively zero,
antisymmetric and transitive, and trailing zero components are
neutral: `version_compare "v1.7" "v1.7.0" = 0`. -/
theorem C4_version_compare_total_order :
    (∀ v : Str, wellFormed v = true → version_compare v v = some 0) ∧
    (∀ (a b : Str) (c : Int), version_compare a b = some c →
      version_compare b a = some (-c)) ∧
    (∀ a b c : Str, version_compare a b = some (-1) →
      version_compare b c = some (-1) → version_compare a c = some (-1)) ∧
    version_compare (str "v1.7") (str "v1.7.0") = some 0 :=
  ⟨version_compare_self, version_compare_antisym, version_compare_trans,
    by decide⟩

/-- Witness for C4 at concrete versions. -/
theorem C4_version_compare_total_order_witness :
    version_compare (str "v1.29.3") (str "v1.29.3") = some 0 ∧
    version_compare (str "v1.30.0") (str "v1.29.3") = some (-(-1)) ∧
    version_compare (str "v1.7") (str "v2.0.0") = some (-1) :=
  ⟨C4_version_compare_total_order.1 (str "v1.29.3") (by decide),
    C4_version_compare_total_order.2.1 (str "v1.29.3") (str "v1.30.0") (-1)
      (by decide),
    C4_version_compare_total_order.2.2.1 (str "v1.7") (str "v1.29.3")
      (str "v2.0.0") (by decide) (by decide)⟩

/-- Membership characterization of a successful `filterVersions`. -/
theorem filterVersions_mem (tags : List Str) (lo hi : Str) (out : List Str)
    (h : filterVersions tags lo hi = some out) (v : Str) :
    v ∈ out ↔ v ∈ tags ∧ hasHyphen v = false ∧
      (∃ c1, version_compare v lo = some c1 ∧ 0 ≤ c1) ∧
      (∃ c2, version_compare v hi = some c2 ∧ c2 ≤ 0) := by
  induction tags generalizing out with
  | nil =>
    simp only [filterVersions, Option.some.injEq] at h
    subst h
    simp
  | cons w rest ih =>
    simp only [filterVersions] at h
    by_cases hw : hasHyphen w = true
    · rw [if_pos hw] at h
      rw [ih out h]
      constructor
      · rintro ⟨hvr, hrest⟩
        exact ⟨List.mem_cons_of_mem _ hvr, hrest⟩
      · rintro ⟨hv, hnh, hrest⟩
        rcases List.mem_cons.mp hv with rfl | hvr
        · rw [hw] at hnh; cases hnh
        · exact ⟨hvr, hnh, hrest⟩
    · have hw' : hasHyphen w = false := by simpa using hw
      rw [if_neg hw] at h
      rcases h1 : version_compare w lo with _ | c1 <;>
        rw [h1, Option.bind] at h
      · cases h
      · by_cases hc1 : 0 ≤ c1
        · rw [if_pos hc1] at h
          rcases h2 : version_compare w hi with _ | c2 <;>
            rw [h2, Option.bind] at h
          · cases h
          · rcases h3 : filterVersions rest lo hi with _ | tail <;>
              rw [h3, Option.bind] at h
            · cases h
            · rw [Option.some.injEq] at h
              subst h
              by_cases hc2 : c2 ≤ 0
              · rw [if_pos hc2]
                constructor
                · intro hv
                  rcases List.mem_cons.mp hv with rfl | hvt
                  · exact ⟨List.mem_cons_self _ _, hw',
                      ⟨c1, h1, hc1⟩, ⟨c2, h2, hc2⟩⟩
                  · rcases (ih tail h3 |>.mp hvt) with ⟨hvr, hrest⟩
                    exact ⟨List.mem_cons_of_mem _ hvr, hrest⟩
                · rintro ⟨hv, hnh, hlo, hhi⟩
                  rcases List.mem_cons.mp hv with rfl | hvr
                  · exact List.mem_cons_self _ _
                  · exact List.mem_cons_of_mem _
                      ((ih tail h3).mpr ⟨hvr, hnh, hlo, hhi⟩)
              · rw [if_neg hc2]
                rw [ih tail h3]
                constructor
                · rintro ⟨hvr, hrest⟩
                  exact ⟨List.mem_cons_of_mem _ hvr, hrest⟩
                · rintro ⟨hv, hnh, hlo, ⟨c2', h2', hc2'⟩⟩
                  rcases List.mem_cons.mp hv with rfl | hvr
                  · rw [h2] at h2'
                    cases h2'
                    exact absurd hc2' hc2
                  · exact ⟨hvr, hnh, hlo, ⟨c2', h2', hc2'⟩⟩
        · rw [if_neg hc1] at h
          rw [ih out h]
          constructor
          · rintro ⟨hvr, hrest⟩
            exact ⟨List.mem_cons_of_mem _ hvr, hrest⟩
          · rintro ⟨hv, hnh, ⟨c1', h1', hc1'⟩, hhi⟩
            rcases List.mem_cons.mp hv with rfl | hvr
            · rw [h1] at h1'
              cases h1'
              exact absurd hc1' hc1
            · exact ⟨hvr, hnh, ⟨c1', h1', hc1'⟩, hhi⟩

/-- C3: a successful filter retains exactly the hyphen-free tags lying in
the inclusive range `[lo, hi]` under `version_compare`; in particular the
boundaries pass and no hyphen (pre-release) tag is ever present. -/
theorem C3_filter_exact (tags : List Str) (lo hi : Str) (out : List Str)
    (h : filterVersions tags lo hi = some out) (v : Str) :
    v ∈ out ↔ v ∈ tags ∧ hasHyphen v = false ∧
      (∃ c1, version_compare v lo = some c1 ∧ 0 ≤ c1) ∧
      (∃ c2, version_compare v hi = some c2 ∧ c2 ≤ 0) :=
  filterVersions_mem tags lo hi out h v

/-- Witness for C3: with tags `[v1.29.3, v1.8.0-alpha, v1.5.0, v2.1.0,
v1.7.0]` and the configured bounds, the lower boundary `v1.7.0` is
retained. -/
theorem C3_filter_exact_witness :
    str "v1.7.0" ∈ [str "v1.29.3", str "v1.7.0"] :=
  (C3_filter_exact
    [str "v1.29.3", str "v1.8.0-alpha", str "v1.5.0", str "v2.1.0",
      str "v1.7.0"]
    EARLIEST_API_VERSION LATEST_API_VERSION
    [str "v1.29.3", str "v1.7.0"] (by decide) (str "v1.7.0")).mpr
    ⟨by decide, by decide, ⟨0, by decide, by decide⟩,
      ⟨-1, by decide, by decide⟩⟩

theorem keyLe_total : ∀ p q, keyLe p q = true ∨ keyLe q p = true := by
  intro p
  induction p with
  | nil => intro q; exact Or.inl rfl
  | cons a as ih =>
    intro q
    cases q with
    | nil => exact Or.inr rfl
    | cons b bs =>
      simp only [keyLe]
      rcases lt_trichotomy a b with h | h | h
      · left; rw [if_pos h]
      · rw [if_neg (show ¬ a < b by omega), if_neg (show ¬ b < a by omega),
          if_neg (show ¬ b < a by omega), if_neg (show ¬ a < b by omega)]
        exact ih bs
      · right; rw [if_pos h]

theorem keyLe_trans :
    ∀ p q r, keyLe p q = true → keyLe q r = true → keyLe p r = true := by
  intro p
  induction p with
  | nil => intro q r _ _; rfl
  | cons a as ih =>
    intro q r h1 h2
    cases q with
    | nil => simp [keyLe] at h1
    | cons b bs =>
      cases r with
      | nil => simp [keyLe] at h2
      | cons c cs =>
        simp only [keyLe] at h1 h2 ⊢
        by_cases hab : a < b
        · by_cases hbc : b < c
          · rw [if_pos (show a < c by omega)]
          · rw [if_neg hbc] at h2
            by_cases hcb : c < b
            · rw [if_pos hcb] at h2; cases h2
            · rw [if_pos (show a < c by omega)]
        · rw [if_neg hab] at h1
          by_cases hba : b < a
          · rw [if_pos hba] at h1; cases h1
          · rw [if_neg hba] at h1
            by_cases hbc : b < c
            · rw [if_pos (show a < c by omega)]
            · rw [if_neg hbc] at h2
              by_cases hcb : c < b
              · rw [if_pos hcb] at h2; cases h2
              · rw [if_neg hcb] at h2
                rw [if_neg (show ¬ a < c by omega),
                  if_neg (show ¬ c < a by omega)]
                exact ih bs cs h1 h2

theorem padZeros_nil (n : Nat) : padZeros [] n = List.replicate n 0 := by
  simp [padZeros]

theorem padZeros_self (l : List Nat) : padZeros l l.length = l := by
  simp [padZeros]

theorem cmpParts_cons (a b : Nat) (as bs : List Nat) :
    cmpParts (a :: as) (b :: bs) =
      if a < b then -1 else if b < a then 1 else cmpParts as bs := by
  have hmax : max (a :: as).length (b :: bs).length =
      max as.length bs.length + 1 := by
    simp [List.length_cons, Nat.succ_max_succ]
  have hpad : ∀ (x : Nat) (xs : List Nat),
      xs.length ≤ max as.length bs.length →
      padZeros (x :: xs) (max as.length bs.length + 1) =
        x :: padZeros xs (max as.length bs.length) := by
    intro x xs hx
    simp only [padZeros, List.length_cons, List.cons_append,
      Nat.succ_sub_succ]
  rw [cmpParts, hmax, hpad a as (le_max_left _ _),
    hpad b bs (le_max_right _ _)]
  simp only [cmpZip]
  rcases lt_trichotomy a b with h | h | h
  · rw [if_pos h, if_pos h]
  · rw [if_neg (show ¬ a < b by omega), if_neg (show ¬ a < b by omega),
      if_neg (show ¬ b < a by omega), if_neg (show ¬ b < a by omega)]
    exact cmpParts_pad as bs _ (le_max_left _ _) (le_max_right _ _)
  · rw [if_neg (show ¬ a < b by omega), if_neg (show ¬ a < b by omega),
      if_pos h, if_pos h]

theorem cmpParts_nil_cons (b : Nat) (bs : List Nat) :
    cmpParts [] (b :: bs) = if 0 < b then -1 else cmpParts [] bs := by
  have h0 : cmpParts [] (b :: bs) = cmpParts (0 :: []) (b :: bs) := by
    simp only [cmpParts, padZeros_nil, padZeros]
    have : ∀ n, List.replicate (n + 1) (0 : Nat) =
        0 :: List.replicate n 0 := fun n => rfl
    simp [List.length_cons, Nat.max_comm, Nat.succ_max_succ,
      List.replicate_succ]
  rw [h0, cmpParts_cons]
  rcases Nat.eq_zero_or_pos b with rfl | hb
  · simp only [lt_irrefl, if_false, if_neg (lt_irrefl 0)]
  · rw [if_pos hb, if_pos hb]

theorem cmpParts_nil_le : ∀ q : List Nat, cmpParts [] q ≤ 0 := by
  intro q
  induction q with
  | nil => exact le_of_eq rfl
  | cons b bs ih =>
    rw [cmpParts_nil_cons]
    by_cases hb : 0 < b
    · rw [if_pos hb]; omega
    · rw [if_neg hb]; exact ih

theorem keyLe_cmpParts :
    ∀ p q, keyLe p q = true → cmpParts p q ≤ 0 := by
  intro p
  induction p with
  | nil => intro q _; exact cmpParts_nil_le q
  | cons a as ih =>
    intro q h
    cases q with
    | nil => simp [keyLe] at h
    | cons b bs =>
      simp only [keyLe] at h
      rw [cmpParts_cons]
      by_cases hab : a < b
      · rw [if_pos hab]; omega
      · rw [if_neg hab] at h ⊢
        by_cases hba : b < a
        · rw [if_pos hba] at h; cases h
        · rw [if_neg hba] at h ⊢
          exact ih bs h

/-- On well-formed versions the Python key order refines the
`version_compare` order. -/
theorem keyRel_vcLe (a b : Str) (ha : wellFormed a = true)
    (hb : wellFormed b = true) (h : keyRel a b) : vcLe a b := by
  rcases hpa : parseVersion a with _ | pa
  · rw [wellFormed, hpa] at ha; cases ha
  · rcases hpb : parseVersion b with _ | pb
    · rw [wellFormed, hpb] at hb; cases hb
    · refine ⟨cmpParts pa pb, version_compare_eq a b pa pb hpa hpb, ?_⟩
      have hk : keyLe pa pb = true := by
        rw [keyRel, sortKey, sortKey, hpa, hpb] at h
        exact h
      exact keyLe_cmpParts pa pb hk

/-- Every tag a successful filter retains is well-formed. -/
theorem filterVersions_wf (tags : List Str) (lo hi : Str) (out : List Str)
    (h : filterVersions tags lo hi = some out) :
    ∀ v ∈ out, wellFormed v = true := by
  intro v hv
  rcases (filterVersions_mem tags lo hi out h v).mp hv with
    ⟨_, _, ⟨c1, hc1, _⟩, _⟩
  exact (version_compare_wellFormed v lo c1 hc1).1

/-- C7: a successfully resolved catalog is the filtered tag list sorted
ascending under the `version_compare` ordering with the `"master"`
sentinel appended: the final element is always `"master"` and it occurs
exactly once. -/
theorem C7_resolved_catalog (tags : List Str) (lo hi : Str) (r : List Str)
    (h : resolveVersions tags lo hi = some r) :
    r.getLast? = some (str "master") ∧
    r.count (str "master") = 1 ∧
    ∃ l, filterVersions tags lo hi = some l ∧ r.dropLast.Perm l ∧
      List.Sorted vcLe r.dropLast := by
  rcases Option.map_eq_some'.mp h with ⟨l, hl, hr⟩
  subst hr
  have hperm : (pythonSort l).Perm l := List.perm_insertionSort keyRel l
  have hwf : ∀ v ∈ pythonSort l, wellFormed v = true := fun v hv =>
    filterVersions_wf tags lo hi l hl v (hperm.mem_iff.mp hv)
  have hmaster : str "master" ∉ pythonSort l := by
    intro hmem
    have := hwf _ hmem
    rw [show wellFormed (str "master") = false from by decide] at this
    cases this
  refine ⟨List.getLast?_concat _, ?_, l, hl, ?_, ?_⟩
  · rw [List.count_append]
    rw [List.count_eq_zero.mpr hmaster]
    rfl
  · rw [List.dropLast_concat]
    exact hperm
  · rw [List.dropLast_concat]
    haveI : IsTotal Str keyRel :=
      ⟨fun a b => keyLe_total (sortKey a) (sortKey b)⟩
    haveI : IsTrans Str keyRel :=
      ⟨fun a b c => keyLe_trans (sortKey a) (sortKey b) (sortKey c)⟩
    have hs : List.Sorted keyRel (pythonSort l) :=
      List.sorted_insertionSort keyRel l
    exact List.Pairwise.imp_of_mem
      (fun {a b} hma hmb hk => keyRel_vcLe a b (hwf a hma) (hwf b hmb) hk) hs

/-- Witness for C7 at a concrete tag list. -/
theorem C7_resolved_catalog_witness :
    ([str "v1.7.0", str "v1.29.3", str "master"] : List Str).getLast? =
        some (str "master") ∧
    ([str "v1.7.0", str "v1.29.3", str "master"] : List Str).count
        (str "master") = 1 :=
  have h := C7_resolved_catalog
    [str "v1.29.3", str "v1.8.0-alpha", str "v1.5.0", str "v2.1.0",
      str "v1.7.0"]
    EARLIEST_API_VERSION LATEST_API_VERSION
    [str "v1.7.0", str "v1.29.3", str "master"] (by decide)
  ⟨h.1, h.2.1⟩

theorem countP_outcome_split :
    ∀ l : List (Str × Outcome),
      l.countP (fun o => !(o.2).isFailure) +
        l.countP (fun o => (o.2).isFailure) = l.length := by
  intro l
  induction l with
  | nil => rfl
  | cons x xs ih =>
    rw [List.countP_cons, List.countP_cons, List.length_cons]
    cases h : (x.2).isFailure <;> simp [h] <;> omega

/-- C2: the scheduler records one outcome per submitted task; the outcome
at each position depends only on that task's own result (a failing task
neither cancels siblings nor escapes as an exception); when exactly one
task fails the other `N - 1` are reported successful; and the recorded
outcomes are stable under the arbitrary completion order of
`as_completed`. -/
theorem C2_partial_failure_tolerance (α : Type)
    (run : ConversionTask → Except SubprocessError α)
    (ts : List ConversionTask) :
    (schedulerOutcomes run ts).length = ts.length ∧
    (∀ i : Nat, (schedulerOutcomes run ts).get? i =
      (ts.get? i).map fun t => (t.version, reportOutcome (run t))) ∧
    ((schedulerOutcomes run ts).countP (fun o => (o.2).isFailure) = 1 →
      (schedulerOutcomes run ts).countP (fun o => !(o.2).isFailure) =
        ts.length - 1) ∧
    (∀ ts' : List ConversionTask, ts'.Perm ts →
      (schedulerOutcomes run ts').Perm (schedulerOutcomes run ts)) := by
  refine ⟨List.length_map _ _, fun i => List.get?_map _ _ _, ?_, ?_⟩
  · intro hone
    have hsplit := countP_outcome_split (schedulerOutcomes run ts)
    have hl : (schedulerOutcomes run ts).length = ts.length :=
      List.length_map _ _
    omega
  · intro ts' hperm
    exact hperm.map _

/-- Witness for C2: a three-task batch whose middle task fails reports
two successes. -/
theorem C2_partial_failure_tolerance_witness :
    (schedulerOutcomes
      (fun t => if t.version = str "master"
        then Except.error ⟨1⟩ else Except.ok ())
      [mkTask (str "v1.7.0"), mkTask (str "master"),
        mkTask (str "v1.29.3")]).countP (fun o => !(o.2).isFailure) =
      [mkTask (str "v1.7.0"), mkTask (str "master"),
        mkTask (str "v1.29.3")].length - 1 :=
  (C2_partial_failure_tolerance Unit
    (fun t => if t.version = str "master"
      then Except.error ⟨1⟩ else Except.ok ())
    [mkTask (str "v1.7.0"), mkTask (str "master"),
      mkTask (str "v1.29.3")]).2.2.1 (by decide)

/-! ## Skip rule, master rebuild, constant output root -/

theorem pathJoin_ne_root (v : Str) :
    pathJoin (str "kubernetes-api") v ≠ str "kubernetes-api" := by
  intro h
  have hl := congrArg List.length h
  simp only [pathJoin, List.length_append, List.length_cons] at hl
  omega

theorem ensureRoot_away (fs : DirFS) (p : Str)
    (hp : p ≠ str "kubernetes-api") : ensureRoot fs p = fs p := by
  unfold ensureRoot
  by_cases h : (fs (str "kubernetes-api")).isSome
  · rw [if_pos h]
  · rw [if_neg h]
    exact if_neg hp

/-- Through the planning pass, a non-`"master"` version whose output
directory pre-exists yields no task, and its directory is untouched. -/
theorem planTasks_skip_aux (versions : List Str) (fs : DirFS) (v : Str)
    (hv : v ≠ str "master")
    (hex : (fs (pathJoin (str "kubernetes-api") v)).isSome = true) :
    (∀ t ∈ (planTasks versions fs).2, t.version ≠ v) ∧
    (planTasks versions fs).1 (pathJoin (str "kubernetes-api") v) =
      fs (pathJoin (str "kubernetes-api") v) := by
  induction versions generalizing fs with
  | nil => exact ⟨fun t ht => absurd ht (List.not_mem_nil t), rfl⟩
  | cons w rest ih =>
    have hex1 :
        ((ensureRoot fs) (pathJoin (str "kubernetes-api") v)).isSome = true := by
      rw [ensureRoot_away fs _ (pathJoin_ne_root v)]
      exact hex
    have ihr := ih (ensureRoot fs) hex1
    simp only [planTasks]
    by_cases hcond :
        ((ensureRoot fs) (pathJoin (version_to_path w) w)).isSome = true ∧
          w ≠ str "master"
    · rw [if_pos hcond]
      exact ⟨ihr.1, by rw [ihr.2, ensureRoot_away fs _ (pathJoin_ne_root v)]⟩
    · rw [if_neg hcond]
      refine ⟨?_, by rw [ihr.2, ensureRoot_away fs _ (pathJoin_ne_root v)]⟩
      intro t ht
      rcases List.mem_cons.mp ht with rfl | htl
      · show w ≠ v
        intro hwv
        subst hwv
        exact hcond ⟨hex1, hv⟩
      · exact ihr.1 t htl

/-- C8 counterexample: with `v1.7.0`'s output directory on disk, the
reported outcomes of the run contain only `master`'s entry — the skipped
version is absent from the reported outcomes altogether, so it is not
"treated as a success in the reported outcomes" (it has no outcome
entry at all; only a skip warning is logged at submission time). -/
theorem C8_skip_no_outcome_counterexample :
    schedulerOutcomes (fun _ => (Except.ok () : Except SubprocessError Unit))
      (planTasks [str "v1.7.0", str "master"]
        (fsOf [(pathJoin (str "kubernetes-api") (str "v1.7.0"), 5)])).2 =
      [(str "master", Outcome.success)] := by
  decide

/-- C8 (amended): a non-`"master"` version whose per-version output
directory already exists is never submitted: no converter task carries
it (hence no external invocation and no re-run), its directory is left
untouched by the planning pass, and the collection loop reports no
outcome for it — in particular it is never reported as a failure. -/
theorem C8_skip_existing (versions : List Str) (fs : DirFS) (v : Str)
    (hv : v ≠ str "master")
    (hex : (fs (pathJoin (str "kubernetes-api") v)).isSome = true) :
    (∀ t ∈ (planTasks versions fs).2, t.version ≠ v) ∧
    (planTasks versions fs).1 (pathJoin (str "kubernetes-api") v) =
      fs (pathJoin (str "kubernetes-api") v) ∧
    (∀ (α : Type) (run : ConversionTask → Except SubprocessError α),
      ∀ o ∈ schedulerOutcomes run (planTasks versions fs).2, o.1 ≠ v) := by
  have aux := planTasks_skip_aux versions fs v hv hex
  refine ⟨aux.1, aux.2, ?_⟩
  intro α run o ho
  rcases List.mem_map.mp ho with ⟨t, ht, rfl⟩
  exact aux.1 t ht

/-- Witness for C8: with `v1.7.0` already on disk, the only submitted
task is for `master`. -/
theorem C8_skip_existing_witness :
    (mkTask (str "master")).version ≠ str "v1.7.0" :=
  (C8_skip_existing [str "v1.7.0", str "master"]
    (fsOf [(pathJoin (str "kubernetes-api") (str "v1.7.0"), 5)])
    (str "v1.7.0") (by decide) (by decide)).1
    (mkTask (str "master")) (by decide)

theorem removeMasterDir_none (fs : DirFS) :
    removeMasterDir fs (pathJoin (str "kubernetes-api") (str "master")) =
      none := by
  unfold removeMasterDir
  by_cases h :
      (fs (pathJoin (version_to_path (str "master")) (str "master"))).isSome
  · rw [if_pos h]
    exact if_pos rfl
  · rw [if_neg h]
    exact Option.not_isSome_iff_eq_none.mp h

/-- Every occurrence of `"master"` in the version list is submitted: the
skip rule's `version not in {"master"}` guard never suppresses it. -/
theorem planTasks_master_count :
    ∀ (versions : List Str) (fs : DirFS),
      ((planTasks versions fs).2.countP
        fun t => t.version == str "master") =
        versions.count (str "master") := by
  intro versions
  induction versions with
  | nil => intro fs; rfl
  | cons w rest ih =>
    intro fs
    simp only [planTasks]
    by_cases hcond :
        ((ensureRoot fs) (pathJoin (version_to_path w) w)).isSome = true ∧
          w ≠ str "master"
    · rw [if_pos hcond, ih, List.count_cons]
      have hww : (w == str "master") = false :=
        beq_eq_false_iff_ne.mpr hcond.2
      rw [hww]
      rfl
    · rw [if_neg hcond, List.countP_cons, ih, List.count_cons]
      rfl

/-- C9: `"master"` is always rebuilt — the scheduling pipeline first
erases any pre-existing master output directory, and the submission loop
submits a task for every `"master"` occurrence (the directory-exists
skip rule never applies to it). -/
theorem C9_master_always_rebuilt :
    (∀ fs : DirFS,
      removeMasterDir fs (pathJoin (str "kubernetes-api") (str "master")) =
        none) ∧
    (∀ (versions : List Str) (fs : DirFS),
      ((mainSchedule versions fs).2.countP
        fun t => t.version == str "master") =
        versions.count (str "master")) :=
  ⟨removeMasterDir_none,
    fun versions fs => planTasks_master_count versions (removeMasterDir fs)⟩

theorem planTasks_outDir :
    ∀ (versions : List Str) (fs : DirFS) (t : ConversionTask),
      t ∈ (planTasks versions fs).2 →
      t.outDir = pathJoin (str "kubernetes-api") t.version := by
  intro versions
  induction versions with
  | nil => intro fs t ht; exact absurd ht (List.not_mem_nil t)
  | cons w rest ih =>
    intro fs t ht
    simp only [planTasks] at ht
    by_cases hcond :
        ((ensureRoot fs) (pathJoin (version_to_path w) w)).isSome = true ∧
          w ≠ str "master"
    · rw [if_pos hcond] at ht
      exact ih (ensureRoot fs) t ht
    · rw [if_neg hcond] at ht
      rcases List.mem_cons.mp ht with rfl | htl
      · rfl
      · exact ih (ensureRoot fs) t htl

/-- C10: `version_to_path` ignores its argument and returns the constant
root, every submitted task's output directory is
`kubernetes-api/<version>`, and distinct version names map to distinct
per-version output directories. -/
theorem C10_constant_output_root :
    (∀ v : Str, version_to_path v = str "kubernetes-api") ∧
    (∀ (versions : List Str) (fs : DirFS) (t : ConversionTask),
      t ∈ (planTasks versions fs).2 →
      t.outDir = pathJoin (str "kubernetes-api") t.version) ∧
    (∀ a b : Str, a ≠ b →
      pathJoin (version_to_path a) a ≠ pathJoin (version_to_path b) b) := by
  refine ⟨fun v => rfl, planTasks_outDir, ?_⟩
  intro a b hne h
  apply hne
  have h' : str "kubernetes-api" ++ '/' :: a =
      str "kubernetes-api" ++ '/' :: b := h
  have h2 := List.append_cancel_left h'
  injection h2

/-- Witness for C10 at concrete versions. -/
theorem C10_constant_output_root_witness :
    (mkTask (str "master")).outDir =
        pathJoin (str "kubernetes-api") (mkTask (str "master")).version ∧
    pathJoin (version_to_path (str "v1.29.0")) (str "v1.29.0") ≠
      pathJoin (version_to_path (str "v1.29.1")) (str "v1.29.1") :=
  ⟨C10_constant_output_root.2.1 [str "master"] (fsOf []) (mkTask (str "master"))
      (by decide),
    C10_constant_output_root.2.2 (str "v1.29.0") (str "v1.29.1") (by decide)⟩

/-- C1 counterexample: the rewrite of a normalized file is not atomic —
interrupting after the in-place `open(file_path, "w")` leaves the file
truncated to empty, which is neither its prior nor its final
contents. -/
theorem C1_normalization_counterexample :
    ¬ AtomicRewrite
      (rewriteOps (str "out/a.json") (str "sorted"))
      (fun q => if q = str "out/a.json" then some (str "unsorted") else none)
      (str "out/a.json") (str "sorted") := by
  intro h
  have h1 := h 1
  revert h1
  decide

/-- C1 (amended): after a successful converter invocation every `.json`
file of the output directory is re-serialized through the key-sorting
oracle; a per-file `jq` failure is logged, skipped, and leaves that file
in its prior state without failing the overall task; and each rewrite
happens in place at the destination path (truncate then write — the
final contents land at the same path and no sibling path is touched),
not via a temporary sibling. -/
theorem C1_normalization_amended :
    (∀ (jq : Str → Option Str) (files : Dir),
      openapi2jsonschema jq (Except.ok files) =
        Except.ok (normalizeDir jq files)) ∧
    (∀ (jq : Str → Option Str) (d : Dir),
      normalizeDir jq d = d.map fun e =>
        if endsWithJson e.1 then (e.1, (jq e.2).getD e.2) else e) ∧
    (∀ (p s : Str) (fs : FileFS),
      applyOps (rewriteOps p s) fs p = some s ∧
      ∀ q, q ≠ p → applyOps (rewriteOps p s) fs q = fs q) := by
  refine ⟨fun jq files => rfl, ?_, ?_⟩
  · intro jq d
    induction d with
    | nil => rfl
    | cons e rest ih =>
      rcases e with ⟨n, c⟩
      simp only [normalizeDir, List.map_cons]
      by_cases hn : endsWithJson n = true
      · rw [if_pos hn, if_pos hn]
        rcases hjq : jq c with _ | s
      <;> simp [hjq, ih]
      · rw [if_neg hn, if_neg hn]
        rw [ih]
  · intro p s fs
    constructor
    · simp [applyOps, rewriteOps, applyOp, List.foldl]
    · intro q hq
      simp [applyOps, rewriteOps, applyOp, List.foldl, if_neg hq]

/-- Witness for C1 (amended) at a concrete path. -/
theorem C1_normalization_amended_witness :
    applyOps (rewriteOps (str "out/a.json") (str "sorted"))
      (fun q => if q = str "out/a.json" then some (str "unsorted") else none)
      (str "out/b.json") =
      (fun q => if q = str "out/a.json" then some (str "unsorted") else none)
        (str "out/b.json") :=
  (C1_normalization_amended.2.2 (str "out/a.json") (str "sorted")
    (fun q => if q = str "out/a.json" then some (str "unsorted") else none)).2
    (str "out/b.json") (by decide)

theorem updateA_mem (k v : Str) :
    ∀ (acc : List (Str × Str)) (g : Str × Str),
      g ∈ updateA k v acc → g.2 = v ∨ g ∈ acc := by
  intro acc
  induction acc with
  | nil => intro g hg; cases hg
  | cons e rest ih =>
    intro g hg
    rcases e with ⟨k', v'⟩
    simp only [updateA] at hg
    by_cases hk : k' = k
    · rw [if_pos hk] at hg
      rcases List.mem_cons.mp hg with rfl | htl
      · exact Or.inl rfl
      · exact Or.inr (List.mem_cons_of_mem _ htl)
    · rw [if_neg hk] at hg
      rcases List.mem_cons.mp hg with rfl | htl
      · exact Or.inr (List.mem_cons_self _ _)
      · rcases ih g htl with h | h
        · exact Or.inl h
        · exact Or.inr (List.mem_cons_of_mem _ h)

/-- A version with no output directory on disk is never recorded as a
group's latest patch by the scan. -/
theorem scanGroups_excludes (fs : DirFS) :
    ∀ (versions : List Str) (acc gs : List (Str × Str)) (v : Str),
      scanGroups fs versions acc = some gs →
      fs (pathJoin (str "kubernetes-api") v) = none →
      (∀ g ∈ acc, g.2 ≠ v) → ∀ g ∈ gs, g.2 ≠ v := by
  intro versions
  induction versions with
  | nil =>
    intro acc gs v hscan _ hacc
    simp only [scanGroups, Option.some.injEq] at hscan
    subst hscan
    exact hacc
  | cons w rest ih =>
    intro acc gs v hscan hv hacc
    simp only [scanGroups] at hscan
    by_cases hw : (fs (pathJoin (version_to_path w) w)).isSome = true
    · rw [if_pos hw] at hscan
      have hwv : w ≠ v := by
        intro hwv
        subst hwv
        rw [show pathJoin (version_to_path w) w =
          pathJoin (str "kubernetes-api") w from rfl, hv] at hw
        cases hw
      split at hscan
      · refine ih _ gs v hscan hv ?_
        intro g hg
        rcases List.mem_append.mp hg with h | h
        · exact hacc g h
        · rcases List.mem_singleton.mp h with rfl
          exact hwv
      · rename_i cur hlk
        rcases hc : version_compare w cur with _ | c <;>
          rw [hc, Option.bind] at hscan
        · cases hscan
        · by_cases hpos : (0 : Int) < c
          · rw [if_pos hpos] at hscan
            refine ih _ gs v hscan hv ?_
            intro g hg
            rcases updateA_mem (minorOf w) w acc g hg with h | h
            · rw [h]; exact hwv
            · exact hacc g h
          · rw [if_neg hpos] at hscan
            exact ih _ gs v hscan hv hacc
    · rw [if_neg hw] at hscan
      exact ih _ gs v hscan hv hacc

/-- C5: promotion groups the on-disk versions by minor version, selects
each group's latest patch by `version_compare`, removes any stale
directory at the minor slot and deep-copies the latest patch's directory
there; versions without an on-disk output directory are excluded from
candidacy. Concretely, for `v1.29.0, v1.29.1, v1.29.3, v1.30.0` on disk
(plus `v1.30.1` with no directory), `kubernetes-api/v1.29` receives
`v1.29.3`'s contents — replacing its stale copy — and
`kubernetes-api/v1.30` receives `v1.30.0`'s. -/
theorem C5_latest_patch_promotion :
    (∀ (versions : List Str) (fs : DirFS) (gs : List (Str × Str)) (v : Str),
      scanGroups fs versions [] = some gs →
      fs (pathJoin (str "kubernetes-api") v) = none →
      ∀ g ∈ gs, g.2 ≠ v) ∧
    ((promoteOk (copy_latest_patch_versions_to_minor
        [str "v1.29.0", str "v1.29.1", str "v1.29.3", str "v1.30.0",
          str "v1.30.1"]
        (fsOf [(str "kubernetes-api/v1.29.0", 1),
          (str "kubernetes-api/v1.29.1", 2),
          (str "kubernetes-api/v1.29.3", 3),
          (str "kubernetes-api/v1.30.0", 4),
          (str "kubernetes-api/v1.29", 9)]))).bind
        (fun f => f (str "kubernetes-api/v1.29")) = some 3 ∧
      (promoteOk (copy_latest_patch_versions_to_minor
        [str "v1.29.0", str "v1.29.1", str "v1.29.3", str "v1.30.0",
          str "v1.30.1"]
        (fsOf [(str "kubernetes-api/v1.29.0", 1),
          (str "kubernetes-api/v1.29.1", 2),
          (str "kubernetes-api/v1.29.3", 3),
          (str "kubernetes-api/v1.30.0", 4),
          (str "kubernetes-api/v1.29", 9)]))).bind
        (fun f => f (str "kubernetes-api/v1.30")) = some 4) :=
  ⟨fun versions fs gs v h1 h2 =>
      scanGroups_excludes fs versions [] gs v h1 h2
        (fun g hg => absurd hg (List.not_mem_nil g)),
    by decide, by decide⟩

/-- Witness for C5's exclusion clause at a concrete run: `v1.30.1`,
absent from disk, is not selected over `v1.30.0`. -/
theorem C5_latest_patch_promotion_witness :
    ∀ g ∈ [(str "v1.29", str "v1.29.3"), (str "v1.30", str "v1.30.0")],
      (g : Str × Str).2 ≠ str "v1.30.1" :=
  C5_latest_patch_promotion.1
    [str "v1.29.0", str "v1.29.1", str "v1.29.3", str "v1.30.0",
      str "v1.30.1"]
    (fsOf [(str "kubernetes-api/v1.29.0", 1),
      (str "kubernetes-api/v1.29.1", 2),
      (str "kubernetes-api/v1.29.3", 3),
      (str "kubernetes-api/v1.30.0", 4),
      (str "kubernetes-api/v1.29", 9)])
    [(str "v1.29", str "v1.29.3"), (str "v1.30", str "v1.30.0")]
    (str "v1.30.1") (by decide) (by decide)

/-- C6 counterexample: when the selected latest patch's source directory
is missing at copy time (here the `v1.28` group, whose source coincides
with the just-deleted minor slot), promotion does not skip that group
and continue — it aborts with the propagated exception, and the other
group (`v1.29`) is left unpromoted: no `kubernetes-api/v1.29` directory
is ever created. -/
theorem C6_missing_source_counterexample :
    (promoteOk (copy_latest_patch_versions_to_minor
      [str "v1.28", str "v1.29.0"]
      (fsOf [(str "kubernetes-api/v1.28", 1),
        (str "kubernetes-api/v1.29.0", 2)]))).isNone = true ∧
    (promoteErr (copy_latest_patch_versions_to_minor
      [str "v1.28", str "v1.29.0"]
      (fsOf [(str "kubernetes-api/v1.28", 1),
        (str "kubernetes-api/v1.29.0", 2)]))).isSome = true ∧
    (promoteErr (copy_latest_patch_versions_to_minor
      [str "v1.28", str "v1.29.0"]
      (fsOf [(str "kubernetes-api/v1.28", 1),
        (str "kubernetes-api/v1.29.0", 2)]))).bind
      (fun f => f (str "kubernetes-api/v1.29")) = none := by
  decide

/-- C6 (amended): a missing source directory for a group's selected
latest patch makes the `check=True` copy raise, and the exception aborts
the entire promotion at that group — the result is the error state after
the minor-slot deletion, and every remaining group goes unprocessed
(there is no per-group logging-and-skip). -/
theorem C6_missing_source_aborts (fs : DirFS) (minor latest : Str)
    (rest : List (Str × Str))
    (h : (rmIfExists fs (pathJoin (version_to_path minor) minor))
      (pathJoin (version_to_path latest) latest) = none) :
    promoteLoop fs ((minor, latest) :: rest) =
      .err (rmIfExists fs (pathJoin (version_to_path minor) minor)) := by
  simp only [promoteLoop, h]

/-- Witness for C6 (amended) at the counterexample's input. -/
theorem C6_missing_source_aborts_witness :
    promoteLoop
      (fsOf [(str "kubernetes-api/v1.28", 1),
        (str "kubernetes-api/v1.29.0", 2)])
      [(str "v1.28", str "v1.28"), (str "v1.29", str "v1.29.0")] =
      .err (rmIfExists
        (fsOf [(str "kubernetes-api/v1.28", 1),
          (str "kubernetes-api/v1.29.0", 2)])
        (pathJoin (version_to_path (str "v1.28")) (str "v1.28"))) :=
  C6_missing_source_aborts
    (fsOf [(str "kubernetes-api/v1.28", 1),
      (str "kubernetes-api/v1.29.0", 2)])
    (str "v1.28") (str "v1.28") [(str "v1.29", str "v1.29.0")]
    (by decide)

end Build
